import Mathlib

/-!
Verification development for the `Book-Bookkeeper` HTTP client
(`src/HTTP/Client.cpp`).  The C++ operations are shallowly embedded as
executable Lean functions:

* `Map` models `std::map<std::string, std::string>` (the project's `Map`
  alias): a key-sorted association list.  `mapSet` is `operator[]=`,
  `insertIfAbsent`/`insertRange` are `std::map::insert` (which keeps an
  existing entry on key collision), `findVal` is lookup.
* Strings are Lean `String`s (a wrapper around `List Char`); byte-level
  operations work on `.data`.  All inputs of interest are ASCII, where C++
  byte indices and Lean character indices coincide.
* `formatRequest` embeds `HTTPClient::FormatRequest`, `parseResponse`
  embeds `HTTPClient::ParseResponse` (an `Option` result, `none` modelling
  an escaping `std::out_of_range` from `substr`), `sendLoop` embeds
  `HTTPClient::Send`, `receiveLoop` embeds `HTTPClient::Receive`,
  `resolveHost` embeds `HTTPClient::ResolveHost`.
* The socket and resolver are environments: a list of per-call outcomes
  (`SendOutcome`, `RecvResult`) or a resolver result (`Except Unit (List
  AddrInfo)`).
-/

/-- Error codes used by `Client.cpp` (`ECode::...`). -/
inductive ECode where
  | OK
  | WSA_STARTUP
  | HOST_ADDRINFO
  | HOST_NORESULT
  | SOCKET_CONNECT
  | SOCKET_SEND
  | SOCKET_RECV
deriving DecidableEq, Repr

/-! ### Character helpers (C locale `isspace`, `isdigit`, `tolower`) -/

/-- C locale `isspace`. -/
def isSpaceCh (c : Char) : Bool :=
  c == ' ' || c == '\t' || c == '\n' || c == '\x0b' || c == '\x0c' || c == '\r'

/-- C locale `isdigit`. -/
def isDigitCh (c : Char) : Bool :=
  48 ≤ c.toNat && c.toNat ≤ 57

/-- C locale `tolower` restricted to ASCII (all inputs of interest). -/
def asciiToLower (c : Char) : Char :=
  if 65 ≤ c.toNat && c.toNat ≤ 90 then Char.ofNat (c.toNat + 32) else c

/-- Lexicographic `<` on byte strings: `std::string::operator<`. -/
def strLtB : List Char → List Char → Bool
  | [], [] => false
  | [], _ :: _ => true
  | _ :: _, [] => false
  | a :: as, b :: bs =>
    if a.toNat < b.toNat then true
    else if b.toNat < a.toNat then false
    else strLtB as bs

/-! ### `Map`: a key-sorted association list modelling `std::map` -/

/-- The project's `Map` alias (`std::map<std::string, std::string>`),
modelled as a key-sorted association list. -/
abbrev Map : Type := List (String × String)

/-- First-match lookup (agrees with `std::map::find` on sorted lists). -/
def findVal : Map → String → Option String
  | [], _ => none
  | (k', v') :: rest, k =>
    if k = k' then some v' else findVal rest k

/-- `std::map::operator[]= v`: insert at the sorted position or overwrite. -/
def mapSet : Map → String → String → Map
  | [], k, v => [(k, v)]
  | (k', v') :: rest, k, v =>
    if strLtB k.data k'.data then (k, v) :: (k', v') :: rest
    else if k = k' then (k, v) :: rest
    else (k', v') :: mapSet rest k v

/-- Single-element `std::map::insert`: keeps the existing entry on a key
collision. -/
def insertIfAbsent : Map → String × String → Map
  | [], kv => [kv]
  | (k', v') :: rest, (k, v) =>
    if strLtB k.data k'.data then (k, v) :: (k', v') :: rest
    else if k = k' then (k', v') :: rest
    else (k', v') :: insertIfAbsent rest (k, v)

/-- Range `std::map::insert(first, last)`: repeated single inserts. -/
def insertRange (m : Map) (other : Map) : Map :=
  List.foldl insertIfAbsent m other

/-- Well-formedness of a `Map` value: keys strictly sorted, as maintained
by `std::map`. -/
def mapWF (m : Map) : Prop :=
  List.Pairwise (fun a b : String × String => strLtB a.1.data b.1.data = true) m

instance (m : Map) : Decidable (mapWF m) := by
  unfold mapWF
  infer_instance

/-! ### Utils::Split -/

/-- Modelled from the spec: `Utils::Split(raw, "\r\n")` — the raw response
"already split into lines on CRLF" (§4.4); the splitter itself lives in
`Utils.h`, which is not part of `src/`.  Faithful to splitting on every
occurrence of the two-byte separator, keeping empty pieces. -/
def splitCRLF : List Char → List (List Char)
  | [] => [[]]
  | '\r' :: '\n' :: rest => [] :: splitCRLF rest
  | c :: rest =>
    match splitCRLF rest with
    | [] => [[c]]
    | l :: ls => (c :: l) :: ls

/-! ### Numeric parsing (`std::atoi`, `istream >> int`) -/

/-- Accumulate decimal digits, stopping at the first non-digit. -/
def readDigits (acc : Nat) : List Char → Nat
  | [] => acc
  | c :: rest => if isDigitCh c then readDigits (acc * 10 + (c.toNat - 48)) rest else acc

/-- `std::atoi`: skip whitespace, optional sign, digits; `0` if no digits. -/
def atoi (l : List Char) : Int :=
  match l.dropWhile isSpaceCh with
  | '-' :: rest => -(readDigits 0 rest : Int)
  | '+' :: rest => (readDigits 0 rest : Int)
  | s => (readDigits 0 s : Int)

/-- Conversion of an `int` to `size_t` (64-bit), as in
`content_length = std::atoi(...)`. -/
def toSizeT (i : Int) : Nat :=
  (i % (2 ^ 64 : Int)).toNat

/-- `istream >> std::string`: skip whitespace, extract one token; `none`
when the stream is exhausted (failbit). -/
def extractTok (l : List Char) : Option (List Char × List Char) :=
  let s := l.dropWhile isSpaceCh
  if s.isEmpty then none
  else some (s.takeWhile (fun c => !isSpaceCh c), s.dropWhile (fun c => !isSpaceCh c))

/-- `istream >> int`: skip whitespace, optional sign, digits; `none` when
no digit is found (failbit). -/
def extractInt (l : List Char) : Option (Int × List Char) :=
  let s := l.dropWhile isSpaceCh
  let sign : Int := if s.head? = some '-' then -1 else 1
  let s' := if s.head? = some '-' ∨ s.head? = some '+' then s.tail else s
  let ds := s'.takeWhile isDigitCh
  if ds.isEmpty then none
  else some (sign * (readDigits 0 ds : Int), s'.dropWhile isDigitCh)

/-! ### HTTPResponse and the response parser -/

/-- `HTTPResponse` fields populated by `ParseResponse` (the `_raw` buffer
is handled separately by `receiveLoop`).  Field defaults model
`HTTPResponse::Reset`. -/
structure HTTPResponse where
  protover : String := ""
  code : Int := 0
  status : String := ""
  headers : Map := {}
  cookies : Map := {}
  data : String := ""
deriving DecidableEq

/-- The empty (`Reset`) response. -/
def HTTPResponse.empty : HTTPResponse := {}

/-- Parser states of `ParseResponse` (`STATUS`, `HEADERS`, `BODY`). -/
inductive PState where
  | status
  | headers
  | body
deriving DecidableEq

/-- Loop state of `ParseResponse`: current machine state, the tracked
`content_length`, and the response being populated. -/
structure ParserAcc where
  pstate : PState
  content_length : Nat
  resp : HTTPResponse
deriving DecidableEq

/-- `ss >> _protover >> _code >> _status` on the status line.  A failed
extraction sets failbit: later extractions are no-ops, and a failed `int`
extraction writes `0` (C++11). -/
def parseStatusLine (resp : HTTPResponse) (line : List Char) : HTTPResponse :=
  match extractTok line with
  | none => resp
  | some (t1, r1) =>
    match extractInt r1 with
    | none => { resp with protover := String.mk t1, code := 0 }
    | some (n, r2) =>
      match extractTok r2 with
      | none => { resp with protover := String.mk t1, code := n }
      | some (t3, _) => { resp with protover := String.mk t1, code := n, status := String.mk t3 }

/-- `line.substr(pos)`: `none` models the `std::out_of_range` throw when
`pos` exceeds the length. -/
def substrFrom (l : List Char) (pos : Nat) : Option (List Char) :=
  if pos ≤ l.length then some (l.drop pos) else none

/-- `cookie_val.erase(pos)` at the first `;`, if any. -/
def cookieTrunc (l : List Char) : List Char :=
  match l.findIdx? (fun c => c == ';') with
  | none => l
  | some p => l.take p

/-- The BODY-state step: `_data += line;` then `_data += "\r\n"` exactly
when the accumulated length is still below `content_length`. -/
def bodyStep (cl : Nat) (d : String) (line : String) : String :=
  let d' := d ++ line
  if d'.length < cl then d' ++ "\r\n" else d'

/-- One iteration of the `ParseResponse` line loop (`none` models an
escaping `std::out_of_range`). -/
def processLine (acc : ParserAcc) (line : String) : Option ParserAcc :=
  match acc.pstate with
  | PState.status =>
    some { acc with pstate := PState.headers, resp := parseStatusLine acc.resp line.data }
  | PState.headers =>
    if line.length = 0 then some { acc with pstate := PState.body }
    else
      match line.data.findIdx? (fun c => c == ':') with
      | none => some acc
      | some pos =>
        match substrFrom line.data (pos + 2) with
        | none => none
        | some valChars =>
          let key := String.mk ((line.data.take pos).map asciiToLower)
          if key ≠ "set-cookie" then
            let cl :=
              if key = "content-length" then toSizeT (atoi (valChars.takeWhile (fun c => c ≠ '\x00')))
              else acc.content_length
            some { acc with
                   content_length := cl,
                   resp := { acc.resp with headers := mapSet acc.resp.headers key (String.mk valChars) } }
          else
            match valChars.findIdx? (fun c => c == '=') with
            | none => some acc
            | some p2 =>
              some { acc with
                     resp := { acc.resp with
                               cookies := mapSet acc.resp.cookies
                                 (String.mk (valChars.take p2))
                                 (String.mk (cookieTrunc (valChars.drop (p2 + 1)))) } }
  | PState.body =>
    some { acc with resp := { acc.resp with data := bodyStep acc.content_length acc.resp.data line } }

/-- `HTTPClient::ParseResponse` run on the accumulated raw text. -/
def parseResponse (raw : String) : Option HTTPResponse :=
  (List.foldlM processLine ⟨PState.status, 0, HTTPResponse.empty⟩
      ((splitCRLF raw.data).map String.mk)).map ParserAcc.resp

/-! ### FormatRequest -/

/-- Modelled from the spec: the fixed protocol version string emitted in the
request line (`HTTP_VERSION` is a constant in `Client.h`, not in `src/`;
§4.3 fixes it to `HTTP/1.1`). -/
def HTTP_VERSION : String := "HTTP/1.1"

/-- Concatenate the rendering of each entry, as the `request += ...` loops
do. -/
def strConcatMap (f : String × String → String) : List (String × String) → String
  | [] => ""
  | kv :: rest => f kv ++ strConcatMap f rest

/-- The query-string of `FormatRequest`: `?` then `key=value&` per entry
(trailing `&` kept); empty when there are no parameters. -/
def queryString (query_params : Map) : String :=
  if (query_params : List (String × String)).isEmpty then ""
  else "?" ++ strConcatMap (fun kv => kv.1 ++ "=" ++ kv.2 ++ "&") query_params

/-- The request line: `METHOD PATH?QUERY HTTP/1.1\r\n`. -/
def requestLine (method path : String) (query_params : Map) : String :=
  method ++ " " ++ path ++ queryString query_params ++ " " ++ HTTP_VERSION ++ "\r\n"

/-- The header block: one `name: value\r\n` line per merged header. -/
def headerBlock (headers : Map) : String :=
  strConcatMap (fun kv => kv.1 ++ ": " ++ kv.2 ++ "\r\n") headers

/-- The cookie line: `cookie: ` then `name=value;` per entry, only when the
merged cookie map is non-empty. -/
def cookieBlock (cookies : Map) : String :=
  if (cookies : List (String × String)).isEmpty then ""
  else "cookie: " ++ strConcatMap (fun kv => kv.1 ++ "=" ++ kv.2 ++ ";") cookies ++ "\r\n"

/-- The `content-length`/`content-type` lines, emitted only with a
non-empty body. -/
def dataHeaders (data content_type : String) : String :=
  if data.isEmpty then ""
  else "content-length: " ++ toString data.length ++ "\r\n"
       ++ "content-type: " ++ content_type ++ "\r\n"

/-- `HTTPClient::FormatRequest`. -/
def formatRequest (method path : String) (query_params : Map)
    (data content_type : String) (headers cookies : Map) : String :=
  requestLine method path query_params
    ++ headerBlock headers
    ++ cookieBlock cookies
    ++ dataHeaders data content_type
    ++ "\r\n"
    ++ (if data.isEmpty then "" else data)

/-! ### Client state and orchestration (`HTTPClient::Request`) -/

/-- The persistent client state: `_system_headers` and `_system_cookies`. -/
structure ClientState where
  system_headers : Map
  system_cookies : Map
deriving DecidableEq

/-- `SetupSystemHeaders`: seed the `host` header. -/
def setupSystemHeaders (host : String) (port : Int) : Map :=
  mapSet {} "host" (host ++ ":" ++ toString port)

/-- The header merge in `Request`:
`merged_headers = user_headers; merged_headers.insert(_system_headers...)`. -/
def mergeHeaders (user_headers system_headers : Map) : Map :=
  insertRange user_headers system_headers

/-- The cookie merge in `Request`:
`merged_cookies = user_cookies; merged_cookies.insert(_system_cookies...)`. -/
def mergeCookies (user_cookies system_cookies : Map) : Map :=
  insertRange user_cookies system_cookies

/-- The bytes `Request` passes to `Send`: `FormatRequest` on the merged
header and cookie maps. -/
def requestBytes (st : ClientState) (method path : String) (query_params : Map)
    (data content_type : String) (user_headers user_cookies : Map) : String :=
  formatRequest method path query_params data content_type
    (mergeHeaders user_headers st.system_headers)
    (mergeCookies user_cookies st.system_cookies)

/-- The cookie-jar update at the end of a successful `Request`:
`_system_cookies[kv.first] = kv.second` per response cookie. -/
def updateJar (jar : Map) (respCookies : Map) : Map :=
  List.foldl (fun j kv => mapSet j kv.1 kv.2) jar respCookies

/-- The client-state transition of a successful `Request`. -/
def clientAfterResponse (st : ClientState) (resp : HTTPResponse) : ClientState :=
  { st with system_cookies := updateJar st.system_cookies resp.cookies }

/-! ### Send -/

/-- One `send(2)` call's outcome: a hard error, or acceptance of `n` bytes
(the byte count actually transferred is capped by the requested count). -/
inductive SendOutcome where
  | err
  | sent (n : Nat)
deriving DecidableEq

/-- A successful outcome transferring at least one byte. -/
def okOutcome : SendOutcome → Bool
  | SendOutcome.err => false
  | SendOutcome.sent n => n != 0

/-- `HTTPClient::Send`: loop until `remaining_bytes` is zero, advancing by
each call's transferred count; `none` when the modelled outcome list is
exhausted with bytes still remaining. Returns the code and the total
number of bytes transferred. -/
def sendLoop : List SendOutcome → Nat → Option (ECode × Nat)
  | _, 0 => some (ECode.OK, 0)
  | [], _ + 1 => none
  | SendOutcome.err :: _, _ + 1 => some (ECode.SOCKET_SEND, 0)
  | SendOutcome.sent n :: rest, r + 1 =>
    (sendLoop rest (r + 1 - min n (r + 1))).map (fun p => (p.1, p.2 + min n (r + 1)))

/-! ### Receive -/

/-- One `recv(2)` call's outcome: an error, or a chunk of at most 255
bytes. -/
inductive RecvResult where
  | err
  | chunk (bytes : List Nat)
deriving DecidableEq

/-- `buffer[recv_bytes] = 0; response._raw.append(buffer)`: the C-string
append keeps the chunk only up to its first NUL byte. -/
def cstrChunk (bytes : List Nat) : List Nat :=
  bytes.takeWhile (fun b => b ≠ 0)

/-- The accumulation loop of `HTTPClient::Receive`: append each chunk (as a
C string), stop at the first `recv` returning fewer than 255 bytes, fail
on a `recv` error; `none` when the modelled outcome list is exhausted with
the loop still running. -/
def receiveLoop : List RecvResult → Option (ECode × List Nat)
  | [] => none
  | RecvResult.err :: _ => some (ECode.SOCKET_RECV, [])
  | RecvResult.chunk bs :: rest =>
    if bs.length = 255 then
      (receiveLoop rest).map (fun p => (p.1, cstrChunk bs ++ p.2))
    else some (ECode.OK, cstrChunk bs)

/-! ### ResolveHost -/

/-- The fields of `struct addrinfo` inspected by `ResolveHost` (the stored
address is abstracted as a `Nat`). -/
structure AddrInfo where
  ai_family : Nat
  ai_socktype : Nat
  ai_protocol : Nat
  ai_addr : Nat
deriving DecidableEq

/-- `AF_INET`. -/
def AF_INET : Nat := 2

/-- `SOCK_STREAM`. -/
def SOCK_STREAM : Nat := 1

/-- `IPPROTO_TCP`. -/
def IPPROTO_TCP : Nat := 6

/-- The candidate filter of the `ResolveHost` loop. -/
def usableAddr (a : AddrInfo) : Bool :=
  a.ai_family == AF_INET && a.ai_socktype == SOCK_STREAM && a.ai_protocol == IPPROTO_TCP

/-- The candidate scan of `ResolveHost`: first matching candidate wins. -/
def resolveLoop : List AddrInfo → ECode × Option Nat
  | [] => (ECode.HOST_NORESULT, none)
  | a :: rest => if usableAddr a then (ECode.OK, some a.ai_addr) else resolveLoop rest

/-- `HTTPClient::ResolveHost`: `getaddrinfo` failure yields
`HOST_ADDRINFO`; otherwise scan the candidate list. -/
def resolveHost : Except Unit (List AddrInfo) → ECode × Option Nat
  | Except.error _ => (ECode.HOST_ADDRINFO, none)
  | Except.ok cands => resolveLoop cands

/-! ### Claim-side rule and concrete scenario definitions -/

/-- The body-separator rule as the specification words it: append a CRLF
unless appending those two bytes would make the accumulated length reach
or exceed the content length.  (To be compared against `bodyStep`.) -/
def specClaimBodyStep (cl : Nat) (d line : String) : String :=
  let d' := d ++ line
  if d'.length + 2 ≥ cl then d' else d' ++ "\r\n"

/-- A client freshly constructed for `server.example:80`. -/
def cexJarClient : ClientState := ⟨setupSystemHeaders "server.example" 80, []⟩

/-- A parsed response carrying the cookie `s → new`. -/
def cexJarResponse : HTTPResponse := { HTTPResponse.empty with cookies := [("s", "new")] }

/-- The client state after the response above. -/
def cexJarClient2 : ClientState := clientAfterResponse cexJarClient cexJarResponse

/-- The next request through the same client, with a caller-supplied
cookie that collides on the name `s`. -/
def cexJarBytes : String := requestBytes cexJarClient2 "GET" "/" [] "" "" [] [("s", "mine")]

/-! ### Order facts about `strLtB` -/

/-- `Char.toNat` determines the character. -/
theorem charToNat_inj {a b : Char} (h : a.toNat = b.toNat) : a = b := by
  rw [← Char.ofNat_toNat a, ← Char.ofNat_toNat b, h]

/-- `strLtB` is irreflexive. -/
theorem strLtB_irrefl : ∀ l : List Char, strLtB l l = false
  | [] => rfl
  | a :: as => by
    simp [strLtB, strLtB_irrefl as]

/-- `strLtB` is transitive. -/
theorem strLtB_trans : ∀ a b c : List Char,
    strLtB a b = true → strLtB b c = true → strLtB a c = true
  | [], _, _ :: _ => by
    intro _ _
    simp [strLtB]
  | _, _ :: _, [] => by
    intro _ h
    simp [strLtB] at h
  | _, [], [] => by
    intro _ h
    simp [strLtB] at h
  | _ :: _, [], _ :: _ => by
    intro h _
    simp [strLtB] at h
  | a :: as, b :: bs, c :: cs => by
    intro h1 h2
    simp only [strLtB] at h1 h2 ⊢
    by_cases hab : a.toNat < b.toNat
    · by_cases hbc : b.toNat < c.toNat
      · rw [if_pos (Nat.lt_trans hab hbc)]
      · by_cases hcb : c.toNat < b.toNat
        · rw [if_neg hbc, if_pos hcb] at h2
          exact absurd h2 (by simp)
        · rw [if_pos (by omega)]
    · by_cases hba : b.toNat < a.toNat
      · rw [if_neg hab, if_pos hba] at h1
        exact absurd h1 (by simp)
      · by_cases hbc : b.toNat < c.toNat
        · rw [if_pos (by omega)]
        · by_cases hcb : c.toNat < b.toNat
          · rw [if_neg hbc, if_pos hcb] at h2
            exact absurd h2 (by simp)
          · rw [if_neg hab, if_neg hba] at h1
            rw [if_neg hbc, if_neg hcb] at h2
            rw [if_neg (by omega), if_neg (by omega)]
            exact strLtB_trans as bs cs h1 h2

/-- Strict comparison excludes equality. -/
theorem strLtB_ne {a b : List Char} (h : strLtB a b = true) : a ≠ b := by
  intro he
  rw [he, strLtB_irrefl] at h
  exact Bool.false_ne_true h

/-- Totality: two unequal strings compare strictly one way or the other. -/
theorem strLtB_total : ∀ a b : List Char,
    strLtB a b = false → a ≠ b → strLtB b a = true
  | [], [] => by
    intro _ hne
    exact absurd rfl hne
  | [], _ :: _ => by
    intro h _
    simp [strLtB] at h
  | _ :: _, [] => by
    intro _ _
    simp [strLtB]
  | a :: as, b :: bs => by
    intro h hne
    simp only [strLtB] at h ⊢
    by_cases hab : a.toNat < b.toNat
    · rw [if_pos hab] at h
      exact absurd h (by simp)
    · by_cases hba : b.toNat < a.toNat
      · rw [if_pos hba]
      · have hab' : a = b := charToNat_inj (by omega)
        subst hab'
        rw [if_neg hab, if_neg hab] at h ⊢
        exact strLtB_total as bs h (by intro he; exact hne (by rw [he]))

/-! ### Lookup lemmas for `Map` -/

/-- `String` is determined by its character list. -/
theorem strData_inj : ∀ {a b : String}, a.data = b.data → a = b := by
  intro a b h
  exact congrArg String.mk h

/-- Lookup distributes over cons. -/
theorem findVal_cons (k' v' : String) (rest : Map) (q : String) :
    findVal ((k', v') :: rest) q = if q = k' then some v' else findVal rest q := rfl

/-- A map holds no entry for `q` iff every key differs from `q`. -/
theorem findVal_eq_none : ∀ {m : Map} {q : String},
    findVal m q = none ↔ ∀ kv ∈ m, kv.1 ≠ q := by
  intro m
  induction m with
  | nil => simp [findVal]
  | cons kv rest ih =>
    obtain ⟨a, b⟩ := kv
    intro q
    rw [findVal_cons]
    by_cases hq : q = a
    · rw [if_pos hq]
      constructor
      · intro h
        exact absurd h (by simp)
      · intro h
        exact absurd hq.symm (h (a, b) (List.mem_cons_self _ _))
    · rw [if_neg hq]
      constructor
      · intro h kv' hkv'
        rcases List.mem_cons.mp hkv' with rfl | hmem
        · exact fun he => hq he.symm
        · exact ih.mp h kv' hmem
      · intro h
        exact ih.mpr (fun kv' hkv' => h kv' (List.mem_cons_of_mem _ hkv'))

/-- A successful lookup is a membership witness. -/
theorem findVal_mem : ∀ {m : Map} {q v : String}, findVal m q = some v → (q, v) ∈ m := by
  intro m
  induction m with
  | nil =>
    intro q v h
    simp [findVal] at h
  | cons kv rest ih =>
    obtain ⟨a, b⟩ := kv
    intro q v h
    rw [findVal_cons] at h
    by_cases hq : q = a
    · rw [if_pos hq] at h
      have hv := Option.some.inj h
      rw [hq, ← hv]
      exact List.mem_cons_self _ _
    · rw [if_neg hq] at h
      exact List.mem_cons_of_mem _ (ih h)

/-- Lookup after `operator[]=`. -/
theorem find_mapSet : ∀ (m : Map) (k v q : String),
    findVal (mapSet m k v) q = if q = k then some v else findVal m q
  | [], k, v, q => by
    simp [mapSet, findVal_cons, findVal]
  | (k', v') :: rest, k, v, q => by
    simp only [mapSet]
    by_cases h1 : strLtB k.data k'.data
    · rw [if_pos h1, findVal_cons, findVal_cons]
    · rw [if_neg h1]
      by_cases h2 : k = k'
      · subst h2
        rw [if_pos rfl, findVal_cons, findVal_cons]
        by_cases hq : q = k
        · rw [if_pos hq, if_pos hq]
        · rw [if_neg hq, if_neg hq, if_neg hq]
      · rw [if_neg h2, findVal_cons, findVal_cons, find_mapSet rest k v q]
        by_cases hq1 : q = k'
        · rw [if_pos hq1, if_neg (fun he : q = k => h2 (he.symm.trans hq1)),
            if_pos hq1]
        · rw [if_neg hq1]
          by_cases hq2 : q = k
          · rw [if_pos hq2, if_pos hq2]
          · rw [if_neg hq2, if_neg hq2, if_neg hq1]

/-! ### `std::map::insert` lemmas -/

/-- Inserting adds no entry beyond the inserted pair. -/
theorem mem_insertIfAbsent : ∀ (m : Map) (a b : String) (x : String × String),
    x ∈ insertIfAbsent m (a, b) → x = (a, b) ∨ x ∈ m
  | [], a, b, x => by
    simp [insertIfAbsent]
  | (k', v') :: rest, a, b, x => by
    simp only [insertIfAbsent]
    by_cases h1 : strLtB a.data k'.data
    · rw [if_pos h1]
      intro hx
      rcases List.mem_cons.mp hx with rfl | hx'
      · exact Or.inl rfl
      · exact Or.inr hx'
    · rw [if_neg h1]
      by_cases h2 : a = k'
      · rw [if_pos h2]
        exact fun hx => Or.inr hx
      · rw [if_neg h2]
        intro hx
        rcases List.mem_cons.mp hx with rfl | hx'
        · exact Or.inr (List.mem_cons_self _ _)
        · rcases mem_insertIfAbsent rest a b x hx' with h | h
          · exact Or.inl h
          · exact Or.inr (List.mem_cons_of_mem _ h)

/-- `insert` preserves the sortedness invariant. -/
theorem mapWF_insertIfAbsent : ∀ (m : Map), mapWF m → ∀ a b : String,
    mapWF (insertIfAbsent m (a, b))
  | [], _, a, b => by
    simp [insertIfAbsent, mapWF]
  | (k', v') :: rest, hm, a, b => by
    obtain ⟨hhd, hrest⟩ := List.pairwise_cons.mp hm
    simp only [insertIfAbsent]
    by_cases h1 : strLtB a.data k'.data
    · rw [if_pos h1]
      refine List.pairwise_cons.mpr ⟨?_, hm⟩
      intro x hx
      rcases List.mem_cons.mp hx with rfl | hx'
      · exact h1
      · exact strLtB_trans _ _ _ h1 (hhd x hx')
    · rw [if_neg h1]
      by_cases h2 : a = k'
      · rw [if_pos h2]
        exact hm
      · rw [if_neg h2]
        refine List.pairwise_cons.mpr ⟨?_, mapWF_insertIfAbsent rest hrest a b⟩
        intro x hx
        rcases mem_insertIfAbsent rest a b x hx with rfl | hx'
        · exact strLtB_total a.data k'.data (by simpa using h1)
            (fun he => h2 (strData_inj he))
        · exact hhd x hx'

/-- Lookup after a single `insert`: the existing entry survives a
collision. -/
theorem find_insertIfAbsent : ∀ (m : Map), mapWF m → ∀ (a b q : String),
    findVal (insertIfAbsent m (a, b)) q =
      if findVal m a = none ∧ q = a then some b else findVal m q
  | [], _, a, b, q => by
    simp [insertIfAbsent, findVal_cons, findVal]
  | (k', v') :: rest, hm, a, b, q => by
    obtain ⟨hhd, hrest⟩ := List.pairwise_cons.mp hm
    simp only [insertIfAbsent]
    by_cases h1 : strLtB a.data k'.data
    · rw [if_pos h1]
      have habs : findVal ((k', v') :: rest) a = none := by
        rw [findVal_eq_none]
        intro x hx
        rcases List.mem_cons.mp hx with rfl | hx'
        · exact fun he => strLtB_ne h1 (congrArg String.data he.symm)
        · exact fun he =>
            strLtB_ne (strLtB_trans _ _ _ h1 (hhd x hx')) (congrArg String.data he.symm)
      rw [findVal_cons, habs]
      by_cases hq : q = a
      · rw [if_pos hq, if_pos ⟨rfl, hq⟩]
      · rw [if_neg hq, if_neg (fun h : _ ∧ q = a => hq h.2)]
    · rw [if_neg h1]
      by_cases h2 : a = k'
      · rw [if_pos h2]
        have hsome : findVal ((k', v') :: rest) a = some v' := by
          rw [findVal_cons, if_pos h2]
        rw [hsome]
        rw [if_neg (fun h => by simpa using h.1)]
      · rw [if_neg h2, findVal_cons,
          find_insertIfAbsent rest hrest a b q]
        have hfa : findVal ((k', v') :: rest) a = findVal rest a := by
          rw [findVal_cons, if_neg h2]
        rw [hfa]
        by_cases hq1 : q = k'
        · have hq2 : ¬ q = a := fun he => h2 (he.symm.trans hq1)
          rw [if_pos hq1, if_neg (fun h : _ ∧ q = a => hq2 h.2),
            findVal_cons, if_pos hq1]
        · rw [if_neg hq1]
          by_cases hcond : findVal rest a = none ∧ q = a
          · rw [if_pos hcond, if_pos hcond]
          · rw [if_neg hcond, if_neg hcond, findVal_cons, if_neg hq1]

/-- Range `insert` preserves the sortedness invariant. -/
theorem mapWF_insertRange : ∀ (sys user : Map), mapWF user → mapWF (insertRange user sys)
  | [], _, hu => hu
  | (a, b) :: rest, user, hu =>
    mapWF_insertRange rest _ (mapWF_insertIfAbsent user hu a b)

/-- Lookup after the merge `user.insert(sys.begin(), sys.end())`: an entry
of `user` always wins; keys absent from `user` fall through to `sys`. -/
theorem find_insertRange : ∀ (sys user : Map), mapWF user → ∀ q : String,
    findVal (insertRange user sys) q =
      match findVal user q with
      | some v => some v
      | none => findVal sys q
  | [], user, hu, q => by
    cases hfu : findVal user q <;> simp [insertRange, findVal, hfu]
  | (a, b) :: rest, user, hu, q => by
    have step : insertRange user ((a, b) :: rest) = insertRange (insertIfAbsent user (a, b)) rest := rfl
    rw [step, find_insertRange rest _ (mapWF_insertIfAbsent user hu a b) q,
      find_insertIfAbsent user hu a b q]
    by_cases habs : findVal user a = none
    · by_cases hq : q = a
      · rw [if_pos ⟨habs, hq⟩]
        rw [hq, habs]
        simp [findVal_cons]
      · rw [if_neg (fun h => hq h.2)]
        cases hfu : findVal user q
        · simp [findVal_cons, hq]
        · simp
    · rw [if_neg (fun h => habs h.1)]
      cases hfu : findVal user q with
      | none =>
        have hq : ¬ q = a := fun he => habs (he ▸ hfu)
        simp [findVal_cons, hq]
      | some v => simp

/-! ### Cookie-jar update lemmas -/

/-- Updating from cookies that lack `q` leaves the lookup of `q`
unchanged. -/
theorem find_updateJar_absent : ∀ (rc jar : Map) (q : String),
    findVal rc q = none → findVal (updateJar jar rc) q = findVal jar q
  | [], _, _, _ => rfl
  | (a, b) :: rest, jar, q, h => by
    have step : updateJar jar ((a, b) :: rest) = updateJar (mapSet jar a b) rest := rfl
    rw [findVal_cons] at h
    by_cases hq : q = a
    · rw [if_pos hq] at h
      exact absurd h (by simp)
    · rw [if_neg hq] at h
      rw [step, find_updateJar_absent rest _ q h, find_mapSet, if_neg hq]

/-- A cookie delivered by the response ends up in the jar with exactly the
response's value. -/
theorem find_updateJar : ∀ (rc : Map), mapWF rc → ∀ (jar : Map) (q v : String),
    findVal rc q = some v → findVal (updateJar jar rc) q = some v
  | [], _, _, _, _, h => by
    simp [findVal] at h
  | (a, b) :: rest, hwf, jar, q, v, h => by
    obtain ⟨hhd, hrest⟩ := List.pairwise_cons.mp hwf
    rw [findVal_cons] at h
    have step : updateJar jar ((a, b) :: rest) = updateJar (mapSet jar a b) rest := rfl
    by_cases hq : q = a
    · rw [if_pos hq] at h
      have hv := Option.some.inj h
      have hnone : findVal rest q = none := by
        rw [findVal_eq_none]
        intro x hx he
        exact strLtB_ne (hhd x hx) (congrArg String.data (he.trans hq).symm)
      rw [step, find_updateJar_absent rest _ q hnone, find_mapSet, if_pos hq, hv]
    · rw [if_neg hq] at h
      rw [step]
      exact find_updateJar rest hrest (mapSet jar a b) q v h

/-! ### Byte-substring search -/

/-- Prefix test on character lists. -/
def isPrefixB : List Char → List Char → Bool
  | [], _ => true
  | _ :: _, [] => false
  | a :: as, b :: bs => a == b && isPrefixB as bs

/-- Substring test on character lists: `containsSub needle hay` holds when
`needle` occurs contiguously in `hay`. -/
def containsSub : List Char → List Char → Bool
  | needle, [] => isPrefixB needle []
  | needle, c :: rest => isPrefixB needle (c :: rest) || containsSub needle rest

/-- A substring test at `String` level: `strContains hay needle`. -/
def strContains (hay needle : String) : Bool :=
  containsSub needle.data hay.data

/-- Every list is a prefix of itself extended on the right. -/
theorem isPrefixB_self_append : ∀ (l t : List Char), isPrefixB l (l ++ t) = true
  | [], _ => rfl
  | c :: cs, t => by
    simp [isPrefixB, isPrefixB_self_append cs t]

/-- An explicit decomposition witnesses the substring test. -/
theorem containsSub_parts (pre needle post : List Char) :
    containsSub needle (pre ++ needle ++ post) = true := by
  induction pre with
  | nil =>
    cases h : needle ++ post with
    | nil =>
      obtain ⟨hn, hp⟩ := List.append_eq_nil.mp h
      subst hn
      subst hp
      rfl
    | cons c rest =>
      show containsSub needle (needle ++ post) = true
      rw [h]
      show (isPrefixB needle (c :: rest) || containsSub needle rest) = true
      rw [← h, isPrefixB_self_append, Bool.true_or]
  | cons c cs ih =>
    show (isPrefixB needle (c :: (cs ++ needle ++ post)) || containsSub needle (cs ++ needle ++ post)) = true
    rw [ih, Bool.or_true]

/-- The decomposition form of `strContains`. -/
theorem strContains_parts (pre needle post : String) :
    strContains (pre ++ needle ++ post) needle = true := by
  show containsSub needle.data (pre ++ needle ++ post).data = true
  rw [String.data_append, String.data_append]
  exact containsSub_parts pre.data needle.data post.data

/-! ### Concatenation-block lemmas for `FormatRequest` -/

/-- `strConcatMap` distributes over cons. -/
theorem strConcatMap_cons (f : String × String → String) (kv : String × String)
    (rest : List (String × String)) :
    strConcatMap f (kv :: rest) = f kv ++ strConcatMap f rest := rfl

/-- Every entry's rendering occurs contiguously in the concatenation. -/
theorem strConcatMap_mem : ∀ (f : String × String → String) (m : List (String × String))
    (kv : String × String), kv ∈ m →
    ∃ pre post : String, strConcatMap f m = pre ++ f kv ++ post
  | f, [], kv => by
    simp
  | f, hd :: rest, kv => by
    intro h
    rcases List.mem_cons.mp h with rfl | h'
    · refine ⟨"", strConcatMap f rest, ?_⟩
      rw [strConcatMap_cons]
      rfl
    · obtain ⟨pre, post, hp⟩ := strConcatMap_mem f rest kv h'
      refine ⟨f hd ++ pre, post, ?_⟩
      rw [strConcatMap_cons, hp]
      simp [String.append_assoc]

/-! ### Tokenizer lemmas for the status line -/

/-- `takeWhile` stops exactly at the first failing element. -/
theorem takeWhile_append_cons {α : Type} (p : α → Bool) :
    ∀ (l : List α), (∀ c ∈ l, p c = true) → ∀ (x : α), p x = false → ∀ t : List α,
    List.takeWhile p (l ++ x :: t) = l
  | [], _, x, hx, t => by
    simp [List.takeWhile_cons, hx]
  | c :: cs, h, x, hx, t => by
    have hc : p c = true := h c (List.mem_cons_self _ _)
    rw [List.cons_append, List.takeWhile_cons, if_pos hc,
      takeWhile_append_cons p cs (fun d hd => h d (List.mem_cons_of_mem _ hd)) x hx t]

/-- `dropWhile` drops exactly up to the first failing element. -/
theorem dropWhile_append_cons {α : Type} (p : α → Bool) :
    ∀ (l : List α), (∀ c ∈ l, p c = true) → ∀ (x : α), p x = false → ∀ t : List α,
    List.dropWhile p (l ++ x :: t) = x :: t
  | [], _, x, hx, t => by
    simp [List.dropWhile_cons, hx]
  | c :: cs, h, x, hx, t => by
    have hc : p c = true := h c (List.mem_cons_self _ _)
    rw [List.cons_append, List.dropWhile_cons, if_pos hc,
      dropWhile_append_cons p cs (fun d hd => h d (List.mem_cons_of_mem _ hd)) x hx t]

/-- `takeWhile` keeps a list all of whose elements satisfy the predicate. -/
theorem takeWhile_all {α : Type} (p : α → Bool) :
    ∀ l : List α, (∀ c ∈ l, p c = true) → List.takeWhile p l = l
  | [], _ => rfl
  | c :: cs, h => by
    rw [List.takeWhile_cons, if_pos (h c (List.mem_cons_self _ _)),
      takeWhile_all p cs (fun d hd => h d (List.mem_cons_of_mem _ hd))]

/-- `dropWhile` exhausts a list all of whose elements satisfy the
predicate. -/
theorem dropWhile_all {α : Type} (p : α → Bool) :
    ∀ l : List α, (∀ c ∈ l, p c = true) → List.dropWhile p l = []
  | [], _ => rfl
  | c :: cs, h => by
    rw [List.dropWhile_cons, if_pos (h c (List.mem_cons_self _ _)),
      dropWhile_all p cs (fun d hd => h d (List.mem_cons_of_mem _ hd))]

/-- A whitespace character is not a digit. -/
theorem digit_false_of_space {c : Char} (h : isSpaceCh c = true) : isDigitCh c = false := by
  simp only [isSpaceCh, Bool.or_eq_true, beq_iff_eq] at h
  rcases h with ((((h | h) | h) | h) | h) | h <;> subst h <;> decide

/-- A digit is not whitespace. -/
theorem not_space_of_digit {c : Char} (h : isDigitCh c = true) : isSpaceCh c = false := by
  cases hs : isSpaceCh c
  · rfl
  · rw [digit_false_of_space hs] at h
    exact absurd h (by simp)

/-- A digit is neither `-` nor `+`. -/
theorem digit_not_sign {c : Char} (h : isDigitCh c = true) : c ≠ '-' ∧ c ≠ '+' := by
  constructor <;> intro he <;> subst he <;> simp [isDigitCh] at h

/-- Token extraction on `tok ++ tail` with a space-free non-empty token and
a `tail` that is empty or starts with a space. -/
theorem extractTok_eq (tok tail : List Char) (htok : tok ≠ [])
    (htoks : ∀ c ∈ tok, isSpaceCh c = false)
    (htail : tail = [] ∨ ∃ t, tail = ' ' :: t) :
    extractTok (tok ++ tail) = some (tok, tail) := by
  obtain ⟨c, cs, rfl⟩ := List.exists_cons_of_ne_nil htok
  have hnp : ∀ d ∈ c :: cs, (!isSpaceCh d) = true := by
    intro d hd
    rw [htoks d hd]
    rfl
  have hdrop : List.dropWhile isSpaceCh ((c :: cs) ++ tail) = (c :: cs) ++ tail := by
    rw [List.cons_append, List.dropWhile_cons,
      if_neg (by rw [htoks c (List.mem_cons_self _ _)]; simp)]
  show extractTok ((c :: cs) ++ tail) = some (c :: cs, tail)
  unfold extractTok
  simp only [hdrop]
  rcases htail with rfl | ⟨t, rfl⟩
  · rw [if_neg (by simp), List.append_nil, takeWhile_all _ _ hnp, dropWhile_all _ _ hnp]
  · rw [if_neg (by simp),
      takeWhile_append_cons _ _ hnp ' ' (by simp [isSpaceCh]) t,
      dropWhile_append_cons _ _ hnp ' ' (by simp [isSpaceCh]) t]

/-- Integer extraction on `code ++ tail` with a non-empty all-digit code
and a `tail` that is empty or starts with a space. -/
theorem extractInt_eq (code tail : List Char) (hcode : code ≠ [])
    (hdig : ∀ c ∈ code, isDigitCh c = true)
    (htail : tail = [] ∨ ∃ t, tail = ' ' :: t) :
    extractInt (code ++ tail) = some ((readDigits 0 code : Int), tail) := by
  obtain ⟨c, cs, rfl⟩ := List.exists_cons_of_ne_nil hcode
  have hc : isDigitCh c = true := hdig c (List.mem_cons_self _ _)
  have hdrop : List.dropWhile isSpaceCh ((c :: cs) ++ tail) = (c :: cs) ++ tail := by
    rw [List.cons_append, List.dropWhile_cons,
      if_neg (by rw [not_space_of_digit hc]; simp)]
  unfold extractInt
  simp only [hdrop]
  have hhead : ((c :: cs) ++ tail).head? = some c := rfl
  have hnm : ¬ (((c :: cs) ++ tail).head? = some '-' ∨ ((c :: cs) ++ tail).head? = some '+') := by
    rw [hhead]
    rintro (h | h) <;>
      exact absurd (Option.some.inj h) (by
        first
        | exact (digit_not_sign hc).1
        | exact (digit_not_sign hc).2)
  have hnm1 : ¬ (((c :: cs) ++ tail).head? = some '-') := fun h => hnm (Or.inl h)
  rw [if_neg hnm, if_neg hnm1]
  rcases htail with rfl | ⟨t, rfl⟩
  · rw [List.append_nil, takeWhile_all _ _ hdig, dropWhile_all _ _ hdig,
      if_neg (by simp)]
    simp
  · rw [takeWhile_append_cons _ _ hdig ' ' (digit_false_of_space (by simp [isSpaceCh])) t,
      dropWhile_append_cons _ _ hdig ' ' (digit_false_of_space (by simp [isSpaceCh])) t,
      if_neg (by simp)]
    simp

/-- Leading spaces are skipped by token extraction. -/
theorem extractTok_cons_space (l : List Char) : extractTok (' ' :: l) = extractTok l := by
  have h : List.dropWhile isSpaceCh (' ' :: l) = List.dropWhile isSpaceCh l := by
    rw [List.dropWhile_cons, if_pos (by decide)]
  unfold extractTok
  rw [h]

/-- Leading spaces are skipped by integer extraction. -/
theorem extractInt_cons_space (l : List Char) : extractInt (' ' :: l) = extractInt l := by
  have h : List.dropWhile isSpaceCh (' ' :: l) = List.dropWhile isSpaceCh l := by
    rw [List.dropWhile_cons, if_pos (by decide)]
  unfold extractInt
  rw [h]

/-- The status line `PV CODE STAT...` is parsed into its first three
whitespace-delimited tokens: protocol version, numeric code, and the third
token only. -/
theorem parseStatusLine_eq (resp : HTTPResponse) (pv code stat rest : List Char)
    (hpv : pv ≠ []) (hpvs : ∀ c ∈ pv, isSpaceCh c = false)
    (hcode : code ≠ []) (hdig : ∀ c ∈ code, isDigitCh c = true)
    (hstat : stat ≠ []) (hstats : ∀ c ∈ stat, isSpaceCh c = false)
    (hrest : rest = [] ∨ ∃ t, rest = ' ' :: t) :
    parseStatusLine resp (pv ++ ' ' :: (code ++ ' ' :: (stat ++ rest))) =
      { resp with protover := String.mk pv, code := (readDigits 0 code : Int),
                  status := String.mk stat } := by
  unfold parseStatusLine
  rw [extractTok_eq pv (' ' :: (code ++ ' ' :: (stat ++ rest))) hpv hpvs (Or.inr ⟨_, rfl⟩)]
  dsimp only
  rw [extractInt_cons_space, extractInt_eq code (' ' :: (stat ++ rest)) hcode hdig (Or.inr ⟨_, rfl⟩)]
  dsimp only
  rw [extractTok_cons_space, extractTok_eq stat rest hstat hstats hrest]

/-! ### `ParseResponse` step lemmas -/

/-- The STATUS state consumes one line through `parseStatusLine` and moves
to HEADERS. -/
theorem processLine_status (acc : ParserAcc) (line : String)
    (h : acc.pstate = PState.status) :
    processLine acc line =
      some { acc with pstate := PState.headers, resp := parseStatusLine acc.resp line.data } := by
  unfold processLine
  rw [h]

/-- The BODY state appends the line through `bodyStep`. -/
theorem processLine_body (acc : ParserAcc) (line : String)
    (h : acc.pstate = PState.body) :
    processLine acc line =
      some { acc with resp := { acc.resp with
        data := bodyStep acc.content_length acc.resp.data line } } := by
  unfold processLine
  rw [h]

/-- A line whose first colon is followed by at least two more positions is
processed without the out-of-range fault; a line whose colon is closer to
the end faults. -/
theorem processLine_colon_isSome (acc : ParserAcc) (line : String) (pos : Nat)
    (hstate : acc.pstate = PState.headers)
    (hcolon : List.findIdx? (fun c => c == ':') line.data = some pos) :
    (processLine acc line).isSome = true ↔ pos + 2 ≤ line.data.length := by
  have hne : line.data ≠ [] := by
    intro h0
    rw [h0] at hcolon
    simp at hcolon
  unfold processLine
  rw [hstate]
  rw [if_neg (fun h0 : line.length = 0 => hne (List.length_eq_zero.mp h0))]
  rw [hcolon]
  dsimp only
  unfold substrFrom
  by_cases hb : pos + 2 ≤ line.data.length
  · rw [if_pos hb]
    dsimp only
    constructor
    · intro _
      exact hb
    · intro _
      split
      · rfl
      · split
        · rfl
        · rfl
  · rw [if_neg hb]
    dsimp only
    constructor
    · intro h
      simp at h
    · intro h
      exact absurd h hb

/-- The HEADERS step on a `set-cookie` line: no header entry is written,
and the cookie map gains the pair cut at the first `=` and truncated at
the first `;`. -/
theorem processLine_set_cookie (acc : ParserAcc) (line : String) (pos p2 : Nat)
    (hstate : acc.pstate = PState.headers)
    (hcolon : List.findIdx? (fun c => c == ':') line.data = some pos)
    (hbound : pos + 2 ≤ line.data.length)
    (hkey : String.mk (List.map asciiToLower (line.data.take pos)) = "set-cookie")
    (heq : List.findIdx? (fun c => c == '=') (line.data.drop (pos + 2)) = some p2) :
    processLine acc line = some { acc with resp := { acc.resp with
      cookies := mapSet acc.resp.cookies
        (String.mk ((line.data.drop (pos + 2)).take p2))
        (String.mk (cookieTrunc ((line.data.drop (pos + 2)).drop (p2 + 1)))) } } := by
  have hne : line.data ≠ [] := by
    intro h0
    rw [h0] at hcolon
    simp at hcolon
  unfold processLine
  rw [hstate]
  rw [if_neg (fun h0 : line.length = 0 => hne (List.length_eq_zero.mp h0))]
  rw [hcolon]
  dsimp only
  unfold substrFrom
  rw [if_pos hbound]
  dsimp only
  rw [hkey]
  rw [if_neg (by simp)]
  rw [heq]

/-! ### Send/Receive/Resolve loop lemmas -/

/-- `remaining_bytes == 0` ends the loop immediately with success. -/
theorem sendLoop_zero (outs : List SendOutcome) : sendLoop outs 0 = some (ECode.OK, 0) := by
  match outs with
  | [] => rfl
  | SendOutcome.err :: _ => rfl
  | SendOutcome.sent _ :: _ => rfl

/-- A send loop that reports success has transferred exactly the request
length. -/
theorem sendLoop_ok_total : ∀ (outs : List SendOutcome) (len : Nat) (ec : ECode) (t : Nat),
    sendLoop outs len = some (ec, t) → ec = ECode.OK → t = len
  | outs, 0, ec, t => by
    intro h _
    have h' : (some (ECode.OK, 0) : Option (ECode × Nat)) = some (ec, t) :=
      (sendLoop_zero outs) ▸ h
    exact (Prod.mk.injEq .. ▸ Option.some.inj h').2.symm
  | [], r + 1, ec, t => by
    intro h _
    have h' : (none : Option (ECode × Nat)) = some (ec, t) := h
    exact absurd h' (by simp)
  | SendOutcome.err :: rest, r + 1, ec, t => by
    intro h hok
    have h' : (some (ECode.SOCKET_SEND, 0) : Option (ECode × Nat)) = some (ec, t) := h
    have he := (Prod.mk.injEq .. ▸ Option.some.inj h').1
    rw [hok] at he
    exact absurd he (by simp)
  | SendOutcome.sent n :: rest, r + 1, ec, t => by
    intro h hok
    have h' : (sendLoop rest (r + 1 - min n (r + 1))).map
        (fun p => (p.1, p.2 + min n (r + 1))) = some (ec, t) := h
    cases hrec : sendLoop rest (r + 1 - min n (r + 1)) with
    | none =>
      rw [hrec] at h'
      exact absurd h' (by simp)
    | some p =>
      rw [hrec] at h'
      simp only [Option.map_some'] at h'
      obtain ⟨he, ht⟩ := Prod.mk.injEq .. ▸ Option.some.inj h'
      have hp2 := sendLoop_ok_total rest (r + 1 - min n (r + 1)) p.1 p.2
        (by rw [hrec]) (he.trans hok)
      have hle : min n (r + 1) ≤ r + 1 := Nat.min_le_right _ _
      omega

/-- A send loop over successful writes of at least one byte each transfers
everything and reports success. -/
theorem sendLoop_progress : ∀ (outs : List SendOutcome) (len : Nat),
    (∀ o ∈ outs, okOutcome o = true) → len ≤ outs.length →
    sendLoop outs len = some (ECode.OK, len)
  | outs, 0, _, _ => sendLoop_zero outs
  | [], r + 1, _, hlen => by
    simp at hlen
  | SendOutcome.err :: rest, r + 1, hall, _ => by
    have h := hall _ (List.mem_cons_self _ _)
    simp [okOutcome] at h
  | SendOutcome.sent n :: rest, r + 1, hall, hlen => by
    have hn : n ≠ 0 := by
      have h := hall _ (List.mem_cons_self _ _)
      simpa [okOutcome] using h
    have hmin1 : 1 ≤ min n (r + 1) := by omega
    have hle : min n (r + 1) ≤ r + 1 := Nat.min_le_right _ _
    have hlen' : r + 1 - min n (r + 1) ≤ rest.length := by
      simp only [List.length_cons] at hlen
      omega
    show (sendLoop rest (r + 1 - min n (r + 1))).map
        (fun p => (p.1, p.2 + min n (r + 1))) = some (ECode.OK, r + 1)
    rw [sendLoop_progress rest (r + 1 - min n (r + 1))
      (fun o ho => hall o (List.mem_cons_of_mem _ ho)) hlen']
    simp only [Option.map_some']
    rw [Nat.sub_add_cancel hle]

/-- The receive loop concatenates the C-string views of all chunks up to
and including the first short one. -/
theorem receiveLoop_chunks : ∀ (fulls : List (List Nat)), (∀ b ∈ fulls, b.length = 255) →
    ∀ (last : List Nat), last.length < 255 →
    receiveLoop (fulls.map RecvResult.chunk ++ [RecvResult.chunk last]) =
      some (ECode.OK, List.flatten (fulls.map cstrChunk) ++ cstrChunk last)
  | [], _, last, hlast => by
    show receiveLoop [RecvResult.chunk last] = _
    unfold receiveLoop
    rw [if_neg (by omega)]
    simp
  | b :: bs, hall, last, hlast => by
    have hb : b.length = 255 := hall b (List.mem_cons_self _ _)
    show (if b.length = 255
        then (receiveLoop (bs.map RecvResult.chunk ++ [RecvResult.chunk last])).map
          (fun p => (p.1, cstrChunk b ++ p.2))
        else some (ECode.OK, cstrChunk b)) = _
    rw [if_pos hb,
      receiveLoop_chunks bs (fun x hx => hall x (List.mem_cons_of_mem _ hx)) last hlast]
    simp [List.append_assoc]

/-- A receive error after any number of full chunks aborts the loop with
`SOCKET_RECV`, keeping the chunks accumulated so far. -/
theorem receiveLoop_err : ∀ (fulls : List (List Nat)), (∀ b ∈ fulls, b.length = 255) →
    ∀ rest : List RecvResult,
    receiveLoop (fulls.map RecvResult.chunk ++ RecvResult.err :: rest) =
      some (ECode.SOCKET_RECV, List.flatten (fulls.map cstrChunk))
  | [], _, rest => rfl
  | b :: bs, hall, rest => by
    have hb : b.length = 255 := hall b (List.mem_cons_self _ _)
    show (if b.length = 255
        then (receiveLoop (bs.map RecvResult.chunk ++ RecvResult.err :: rest)).map
          (fun p => (p.1, cstrChunk b ++ p.2))
        else some (ECode.OK, cstrChunk b)) = _
    rw [if_pos hb,
      receiveLoop_err bs (fun x hx => hall x (List.mem_cons_of_mem _ hx)) rest]
    simp

/-- A candidate scan with no usable candidate reports `HOST_NORESULT`. -/
theorem resolveLoop_none : ∀ (cands : List AddrInfo),
    (∀ a ∈ cands, usableAddr a = false) → resolveLoop cands = (ECode.HOST_NORESULT, none)
  | [], _ => rfl
  | a :: rest, h => by
    simp [resolveLoop, h a (List.mem_cons_self _ _),
      resolveLoop_none rest (fun x hx => h x (List.mem_cons_of_mem _ hx))]

/-- The candidate scan selects the first usable candidate and ignores the
rest. -/
theorem resolveLoop_first : ∀ (pre : List AddrInfo), (∀ b ∈ pre, usableAddr b = false) →
    ∀ (a : AddrInfo), usableAddr a = true → ∀ post : List AddrInfo,
    resolveLoop (pre ++ a :: post) = (ECode.OK, some a.ai_addr)
  | [], _, a, ha, post => by
    simp [resolveLoop, ha]
  | b :: bs, h, a, ha, post => by
    simp [resolveLoop, h b (List.mem_cons_self _ _),
      resolveLoop_first bs (fun x hx => h x (List.mem_cons_of_mem _ hx)) a ha post]

/-! ### Claim theorems -/

/-- C8: with non-empty query parameters the formatted request line carries
`?` followed by `key=value&` per parameter in iteration order, keeping the
trailing `&` (e.g. `{a:1, b:2}` gives `?a=1&b=2&`); with no parameters the
formatter emits no `?`. -/
theorem format_query_string_spec (qp : Map) (method path : String) (h : qp ≠ []) :
    queryString qp = "?" ++ strConcatMap (fun kv => kv.1 ++ "=" ++ kv.2 ++ "&") qp
    ∧ queryString [] = ""
    ∧ queryString [("a", "1"), ("b", "2")] = "?a=1&b=2&"
    ∧ ('?' ∉ method.data → '?' ∉ path.data → '?' ∉ (requestLine method path []).data) := by
  refine ⟨?_, rfl, by decide, ?_⟩
  · unfold queryString
    rw [if_neg (by simpa using h)]
  · intro hm hp hq
    unfold requestLine at hq
    simp only [String.data_append, List.mem_append] at hq
    rcases hq with (((((hq | hq) | hq) | hq) | hq) | hq) | hq
    · exact hm hq
    · exact absurd hq (by decide)
    · exact hp hq
    · exact absurd hq (by decide)
    · exact absurd hq (by decide)
    · exact absurd hq (by decide)
    · exact absurd hq (by decide)

/-- C8 witness. -/
theorem format_query_string_spec_witness :
    queryString [("a", "1")] = "?a=1&"
    ∧ queryString [("a", "1"), ("b", "2")] = "?a=1&b=2&" := by
  obtain ⟨h1, _, h3, _⟩ := format_query_string_spec [("a", "1")] "GET" "/" (by decide)
  refine ⟨?_, h3⟩
  rw [h1]
  decide

/-- C9: `ResolveHost` reports `HOST_ADDRINFO` exactly when `getaddrinfo`
itself fails; on success it reports `HOST_NORESULT` when no candidate is
IPv4/stream/TCP, and otherwise stores the first matching candidate's
address, ignoring all later candidates. -/
theorem resolve_host_spec (cands pre post : List AddrInfo) (a : AddrInfo)
    (hnone : ∀ b ∈ cands, usableAddr b = false)
    (hpre : ∀ b ∈ pre, usableAddr b = false) (ha : usableAddr a = true) :
    (∀ e : Unit, resolveHost (Except.error e) = (ECode.HOST_ADDRINFO, none))
    ∧ resolveHost (Except.ok cands) = (ECode.HOST_NORESULT, none)
    ∧ resolveHost (Except.ok (pre ++ a :: post)) = (ECode.OK, some a.ai_addr) :=
  ⟨fun _ => rfl, resolveLoop_none cands hnone, resolveLoop_first pre hpre a ha post⟩

/-- C9 witness. -/
theorem resolve_host_spec_witness :
    resolveHost (Except.ok [⟨10, 1, 6, 7⟩]) = (ECode.HOST_NORESULT, none)
    ∧ resolveHost (Except.ok [⟨2, 2, 6, 1⟩, ⟨2, 1, 6, 42⟩, ⟨2, 1, 6, 99⟩]) =
      (ECode.OK, some 42) := by
  obtain ⟨_, h2, h3⟩ := resolve_host_spec [⟨10, 1, 6, 7⟩] [⟨2, 2, 6, 1⟩] [⟨2, 1, 6, 99⟩]
    ⟨2, 1, 6, 42⟩ (by decide) (by decide) (by decide)
  exact ⟨h2, h3⟩

/-- C6: over any transport whose successful writes each transfer at least
one byte, the send loop transfers exactly the request length and returns
success; a successful result always means the full length was
transferred; a failing write aborts immediately with `SOCKET_SEND`. -/
theorem send_full_transfer_spec (outs : List SendOutcome) (len : Nat)
    (hall : ∀ o ∈ outs, okOutcome o = true) (hlen : len ≤ outs.length) :
    sendLoop outs len = some (ECode.OK, len)
    ∧ (∀ (outs2 : List SendOutcome) (t : Nat),
        sendLoop outs2 len = some (ECode.OK, t) → t = len)
    ∧ (∀ (rest : List SendOutcome) (m : Nat),
        sendLoop (SendOutcome.err :: rest) (m + 1) = some (ECode.SOCKET_SEND, 0)) :=
  ⟨sendLoop_progress outs len hall hlen,
   fun outs2 t h => sendLoop_ok_total outs2 len ECode.OK t h rfl,
   fun _ _ => rfl⟩

/-- C6 witness: a transport accepting two bytes, then one, then one,
transfers a three-byte request completely. -/
theorem send_full_transfer_spec_witness :
    sendLoop [SendOutcome.sent 2, SendOutcome.sent 1, SendOutcome.sent 1] 3 =
      some (ECode.OK, 3) :=
  (send_full_transfer_spec [SendOutcome.sent 2, SendOutcome.sent 1, SendOutcome.sent 1] 3
    (by decide) (by decide)).1

/-- C5 counterexample: a three-byte chunk containing a NUL byte is not
appended in full — the C-string append truncates it at the NUL, so the raw
buffer is not the concatenation of the chunks. -/
theorem receive_nul_truncation_cex :
    receiveLoop [RecvResult.chunk [97, 0, 98]] = some (ECode.OK, [97])
    ∧ [97] ≠ [97, 0, 98] :=
  ⟨by decide, by decide⟩

/-- C5 amended: each chunk is appended truncated at its first NUL byte
(hence in full when NUL-free), the loop ends exactly at the first read of
fewer than 255 bytes, and a read error yields `SOCKET_RECV`. -/
theorem receive_accumulate_spec (fulls : List (List Nat)) (last : List Nat)
    (rest : List RecvResult)
    (hfull : ∀ b ∈ fulls, b.length = 255) (hlast : last.length < 255) :
    receiveLoop (fulls.map RecvResult.chunk ++ [RecvResult.chunk last]) =
      some (ECode.OK, List.flatten (fulls.map cstrChunk) ++ cstrChunk last)
    ∧ receiveLoop (fulls.map RecvResult.chunk ++ RecvResult.err :: rest) =
      some (ECode.SOCKET_RECV, List.flatten (fulls.map cstrChunk))
    ∧ (∀ bytes : List Nat, (∀ x ∈ bytes, x ≠ 0) → cstrChunk bytes = bytes) :=
  ⟨receiveLoop_chunks fulls hfull last hlast,
   receiveLoop_err fulls hfull rest,
   fun bytes h =>
     takeWhile_all _ bytes (fun x hx => decide_eq_true (h x hx))⟩

set_option maxRecDepth 8192 in
/-- C5 witness: a full 255-byte chunk followed by a one-byte chunk
accumulates both and stops. -/
theorem receive_accumulate_spec_witness :
    receiveLoop [RecvResult.chunk (List.replicate 255 65), RecvResult.chunk [66]] =
      some (ECode.OK, List.replicate 255 65 ++ [66]) := by
  have h := (receive_accumulate_spec [List.replicate 255 65] [66] []
    (by intro b hb; simp at hb; subst hb; simp) (by decide)).1
  rw [show ([List.replicate 255 65].map RecvResult.chunk ++ [RecvResult.chunk [66]]) =
    [RecvResult.chunk (List.replicate 255 65), RecvResult.chunk [66]] from rfl] at h
  rw [h]
  decide

/-- C1 counterexample: with a caller-supplied `host` header, the merged
mapping (and the emitted header line) carries the caller's value, not the
persistent system value — persistent does not win. -/
theorem header_merge_persistent_wins_cex :
    findVal (setupSystemHeaders "server.example" 80) "host" = some "server.example:80"
    ∧ findVal (mergeHeaders (mapSet [] "host" "spoofed.example")
        (setupSystemHeaders "server.example" 80)) "host" = some "spoofed.example"
    ∧ headerBlock (mergeHeaders (mapSet [] "host" "spoofed.example")
        (setupSystemHeaders "server.example" 80)) = "host: spoofed.example\r\n"
    ∧ ("spoofed.example" : String) ≠ "server.example:80" :=
  ⟨by decide, by decide, by decide, by decide⟩

/-- C1 amended: on a name collision the caller-supplied header wins
(`std::map::insert` keeps the existing entry); persistent system headers
only fill in names the caller did not supply. -/
theorem header_merge_caller_wins (user sys : Map) (k v : String) (hwf : mapWF user) :
    (findVal user k = some v → findVal (mergeHeaders user sys) k = some v)
    ∧ (findVal user k = none → findVal (mergeHeaders user sys) k = findVal sys k) := by
  constructor
  · intro h
    unfold mergeHeaders
    rw [find_insertRange sys user hwf k, h]
  · intro h
    unfold mergeHeaders
    rw [find_insertRange sys user hwf k, h]

/-- C1 witness. -/
theorem header_merge_caller_wins_witness :
    findVal (mergeHeaders [("host", "u.example")] [("host", "s.example")]) "host" =
      some "u.example" :=
  (header_merge_caller_wins [("host", "u.example")] [("host", "s.example")]
    "host" "u.example" (by decide)).1 (by decide)

/-- A string equal to an explicit decomposition passes the substring
test. -/
theorem strContains_of_eq (s pre needle post : String) (h : s = pre ++ needle ++ post) :
    strContains s needle = true := by
  rw [h]
  exact strContains_parts pre needle post

/-- C7 counterexample: the first response sets cookie `s → new` and the jar
records it, but the next request supplies its own cookie named `s`; the
non-overwriting merge keeps the caller's value, so the formatted bytes
carry `s=mine;` and not `s=new;` — the claim fails for that subsequent
request. -/
theorem cookie_jar_subsequent_request_cex :
    cexJarClient2.system_cookies = [("s", "new")]
    ∧ strContains cexJarBytes "cookie: " = true
    ∧ strContains cexJarBytes "s=mine;" = true
    ∧ strContains cexJarBytes "s=new;" = false :=
  ⟨by decide, by decide, by decide, by decide⟩

/-- C7 amended: a response cookie overwrites the jar entry, and every
subsequent request whose caller-supplied cookies do not use that name
emits a `cookie: ` line containing `name=value;` with the jar's value. -/
theorem cookie_jar_persistence_spec (jar rc : Map) (name value : String)
    (hwfrc : mapWF rc) (hrc : findVal rc name = some value)
    (sh uc : Map) (hwfuc : mapWF uc) (huc : findVal uc name = none)
    (method path : String) (qp : Map) (data ct : String) (uh : Map) :
    findVal (updateJar jar rc) name = some value
    ∧ strContains (requestBytes ⟨sh, updateJar jar rc⟩ method path qp data ct uh uc)
        "cookie: " = true
    ∧ strContains (requestBytes ⟨sh, updateJar jar rc⟩ method path qp data ct uh uc)
        (name ++ "=" ++ value ++ ";") = true := by
  have hjar := find_updateJar rc hwfrc jar name value hrc
  have hmerged : findVal (mergeCookies uc (updateJar jar rc)) name = some value := by
    unfold mergeCookies
    rw [find_insertRange (updateJar jar rc) uc hwfuc name, huc]
    exact hjar
  have hmem := findVal_mem hmerged
  have hne : mergeCookies uc (updateJar jar rc) ≠ [] := by
    intro h0
    rw [h0] at hmem
    simp at hmem
  have hE : (mergeCookies uc (updateJar jar rc)).isEmpty = false := by
    cases hM : mergeCookies uc (updateJar jar rc)
    · exact absurd hM hne
    · rfl
  have hbytes : requestBytes ⟨sh, updateJar jar rc⟩ method path qp data ct uh uc =
      requestLine method path qp
      ++ headerBlock (mergeHeaders uh sh)
      ++ ("cookie: "
          ++ strConcatMap (fun kv => kv.1 ++ "=" ++ kv.2 ++ ";")
              (mergeCookies uc (updateJar jar rc))
          ++ "\r\n")
      ++ dataHeaders data ct
      ++ "\r\n"
      ++ (if data.isEmpty then "" else data) := by
    unfold requestBytes formatRequest cookieBlock
    rw [if_neg (by rw [hE]; simp)]
  refine ⟨hjar, ?_, ?_⟩
  · apply strContains_of_eq _
      (requestLine method path qp ++ headerBlock (mergeHeaders uh sh))
      "cookie: "
      (strConcatMap (fun kv => kv.1 ++ "=" ++ kv.2 ++ ";")
          (mergeCookies uc (updateJar jar rc))
        ++ "\r\n" ++ dataHeaders data ct ++ "\r\n" ++ (if data.isEmpty then "" else data))
    rw [hbytes]
    simp [String.append_assoc]
  · obtain ⟨pre, post, hdec⟩ := strConcatMap_mem (fun kv => kv.1 ++ "=" ++ kv.2 ++ ";")
      (mergeCookies uc (updateJar jar rc)) (name, value) hmem
    apply strContains_of_eq _
      (requestLine method path qp ++ headerBlock (mergeHeaders uh sh) ++ "cookie: " ++ pre)
      (name ++ "=" ++ value ++ ";")
      (post ++ "\r\n" ++ dataHeaders data ct ++ "\r\n" ++ (if data.isEmpty then "" else data))
    rw [hbytes, hdec]
    simp [String.append_assoc]

/-- C7 witness. -/
theorem cookie_jar_persistence_spec_witness :
    findVal (updateJar [] [("s", "new")]) "s" = some "new"
    ∧ strContains (requestBytes ⟨[("host", "h:1")], updateJar [] [("s", "new")]⟩
        "GET" "/" [] "" "" [] []) "s=new;" = true := by
  obtain ⟨h1, _, h3⟩ := cookie_jar_persistence_spec [] [("s", "new")] "s" "new"
    (by decide) (by decide) [("host", "h:1")] [] (by decide) (by decide)
    "GET" "/" [] "" "" []
  refine ⟨h1, ?_⟩
  rw [show ("s=new;" : String) = "s" ++ "=" ++ "new" ++ ";" from rfl]
  exact h3

/-- C2 counterexample: parsing `HTTP/1.1 404 Not Found` stores status text
`Not`, not the remainder `Not Found` — `>>` extracts a single
whitespace-delimited token. -/
theorem parse_status_remainder_cex :
    (parseResponse "HTTP/1.1 404 Not Found").map (fun r => (r.protover, r.code, r.status)) =
      some ("HTTP/1.1", 404, "Not")
    ∧ ("Not" : String) ≠ "Not Found" :=
  ⟨by decide, by decide⟩

/-- C2 amended: the status line is split by whitespace into protocol
version (first token), numeric status code (second token), and the THIRD
token alone as status text; any remainder after the third token is
discarded. -/
theorem parse_status_third_token (resp : HTTPResponse) (pv code stat rest : List Char)
    (hpv : pv ≠ []) (hpvs : ∀ c ∈ pv, isSpaceCh c = false)
    (hcode : code ≠ []) (hdig : ∀ c ∈ code, isDigitCh c = true)
    (hstat : stat ≠ []) (hstats : ∀ c ∈ stat, isSpaceCh c = false)
    (hrest : rest = [] ∨ ∃ t, rest = ' ' :: t) :
    parseStatusLine resp (pv ++ ' ' :: (code ++ ' ' :: (stat ++ rest))) =
      { resp with protover := String.mk pv, code := (readDigits 0 code : Int),
                  status := String.mk stat }
    ∧ (∀ (acc : ParserAcc) (line : String), acc.pstate = PState.status →
        processLine acc line =
          some { acc with pstate := PState.headers, resp := parseStatusLine acc.resp line.data }) :=
  ⟨parseStatusLine_eq resp pv code stat rest hpv hpvs hcode hdig hstat hstats hrest,
   processLine_status⟩

/-- C2 witness: the amended rule on `HTTP/1.1 404 Not Found`. -/
theorem parse_status_third_token_witness :
    parseStatusLine HTTPResponse.empty ("HTTP/1.1 404 Not Found".data) =
      { HTTPResponse.empty with protover := "HTTP/1.1", code := 404, status := "Not" } := by
  have h := (parse_status_third_token HTTPResponse.empty
    "HTTP/1.1".data "404".data "Not".data " Found".data
    (by decide) (by decide) (by decide) (by decide) (by decide) (by decide)
    (Or.inr ⟨"Found".data, by decide⟩)).1
  rw [show ("HTTP/1.1 404 Not Found".data) =
    "HTTP/1.1".data ++ ' ' :: ("404".data ++ ' ' :: ("Not".data ++ " Found".data)) from rfl]
  rw [h]
  decide

/-- C3 counterexample: with `content-length: 6` and body lines
`hello`/`x`, the parser appends a CRLF after `hello` although the length
is content-length − 1 (the code re-appends whenever the accumulated length
is still below content-length), so the body is `hello\r\nx` where the
claim's rule would give `hellox`. -/
theorem parse_body_crlf_cex :
    (parseResponse "HTTP/1.1 200 OK\r\ncontent-length: 6\r\n\r\nhello\r\nx").map
        (fun r => r.data) = some "hello\r\nx"
    ∧ List.foldl (fun d line => specClaimBodyStep 6 d line) "" ["hello", "x"] = "hellox"
    ∧ ("hello\r\nx" : String) ≠ "hellox"
    ∧ bodyStep 6 "" "hello" = "hello\r\n"
    ∧ specClaimBodyStep 6 "" "hello" = "hello" :=
  ⟨by decide, by decide, by decide, by decide, by decide⟩

/-- C3 amended: in the BODY state a CRLF is appended after a line exactly
when the accumulated body length (with the line appended) is still
strictly below the parsed content-length; in particular at accumulated
length content-length − 1 a CRLF IS appended. -/
theorem parse_body_crlf_rule (cl : Nat) (d line : String) (acc : ParserAcc) (l2 : String)
    (hstate : acc.pstate = PState.body) :
    (bodyStep cl d line = d ++ line ++ "\r\n" ↔ (d ++ line).length < cl)
    ∧ ((d ++ line).length + 1 = cl → bodyStep cl d line = d ++ line ++ "\r\n")
    ∧ processLine acc l2 = some { acc with resp := { acc.resp with
        data := bodyStep acc.content_length acc.resp.data l2 } } := by
  refine ⟨?_, ?_, processLine_body acc l2 hstate⟩
  · unfold bodyStep
    by_cases h : (d ++ line).length < cl
    · rw [if_pos h]
      exact iff_of_true rfl h
    · rw [if_neg h]
      constructor
      · intro he
        have hlen := congrArg String.length he
        have h2 : ("\r\n" : String).length = 2 := rfl
        simp only [String.length_append, h2] at hlen
        omega
      · intro h2
        exact absurd h2 h
  · intro h1
    unfold bodyStep
    rw [if_pos (by omega)]

/-- C3 witness: at accumulated length 5 = 6 − 1 the CRLF is appended. -/
theorem parse_body_crlf_rule_witness :
    bodyStep 6 "" "hello" = "hello\r\n" := by
  have h := (parse_body_crlf_rule 6 "" "hello" ⟨PState.body, 6, HTTPResponse.empty⟩ "x"
    rfl).2.1 (by decide)
  rw [h]
  decide

/-- C4: a header-state line whose lower-cased name is `set-cookie` (with
its value in bounds and containing `=`) stores nothing in the headers
mapping; the cookie mapping gains the name before the first `=` of the
value, mapped to the value truncated at its first `;`. -/
theorem parse_set_cookie_spec (acc : ParserAcc) (line : String) (pos p2 : Nat)
    (hstate : acc.pstate = PState.headers)
    (hcolon : List.findIdx? (fun c => c == ':') line.data = some pos)
    (hbound : pos + 2 ≤ line.data.length)
    (hkey : String.mk (List.map asciiToLower (line.data.take pos)) = "set-cookie")
    (heq : List.findIdx? (fun c => c == '=') (line.data.drop (pos + 2)) = some p2) :
    ∃ acc', processLine acc line = some acc'
      ∧ acc'.resp.headers = acc.resp.headers
      ∧ acc'.resp.cookies = mapSet acc.resp.cookies
          (String.mk ((line.data.drop (pos + 2)).take p2))
          (String.mk (cookieTrunc ((line.data.drop (pos + 2)).drop (p2 + 1)))) :=
  ⟨_, processLine_set_cookie acc line pos p2 hstate hcolon hbound hkey heq, rfl, rfl⟩

/-- C4 witness: the line `set-cookie: session=abc123; Path=/` yields the
cookie `session → abc123` and leaves the headers mapping empty. -/
theorem parse_set_cookie_spec_witness :
    ∃ acc', processLine ⟨PState.headers, 0, HTTPResponse.empty⟩
        "set-cookie: session=abc123; Path=/" = some acc'
      ∧ acc'.resp.headers = []
      ∧ acc'.resp.cookies = [("session", "abc123")] := by
  obtain ⟨acc', h1, h2, h3⟩ := parse_set_cookie_spec ⟨PState.headers, 0, HTTPResponse.empty⟩
    "set-cookie: session=abc123; Path=/" 10 7 rfl (by decide) (by decide) (by decide) (by decide)
  refine ⟨acc', h1, by rw [h2]; decide, ?_⟩
  rw [h3]
  decide

/-- C10 counterexample: the parser faults on the header line `x:` — the
colon is the final character, so `substr(pos + 2)` is out of range (the
parse is modelled as `none`). -/
theorem header_colon_fault_cex :
    processLine ⟨PState.headers, 0, HTTPResponse.empty⟩ "x:" = none
    ∧ parseResponse "HTTP/1.1 200 OK\r\nx:" = none :=
  ⟨by decide, by decide⟩

/-- C10 amended: on a header-state line with its first colon at `pos`, the
value extraction stays in bounds (and the parser does not fault) exactly
when `pos + 2` does not exceed the line length — equivalently, the colon
is not the line's final character. -/
theorem header_colon_bounds_spec (acc : ParserAcc) (line : String) (pos : Nat)
    (hstate : acc.pstate = PState.headers)
    (hcolon : List.findIdx? (fun c => c == ':') line.data = some pos) :
    (processLine acc line).isSome = true ↔ pos + 2 ≤ line.data.length :=
  processLine_colon_isSome acc line pos hstate hcolon

/-- C10 witness: the line `a: b` (colon not final) is processed without a
fault. -/
theorem header_colon_bounds_spec_witness :
    (processLine ⟨PState.headers, 0, HTTPResponse.empty⟩ "a: b").isSome = true :=
  (header_colon_bounds_spec ⟨PState.headers, 0, HTTPResponse.empty⟩ "a: b" 1
    rfl (by decide)).mpr (by decide)
